import Mathlib

/-!
Verification of the view-to-model conversion dispatcher
(`src/packages/ckeditor5-engine/src/conversion/viewconversiondispatcher.js`)
and of the model insert operation (`src/unnamed/part_000`,
`engine/model/operation/insertoperation.js`).

The JavaScript code is shallowly embedded:

* JavaScript runtime values that flow through `data.output` are modelled by
  `JSValue` (with JavaScript truthiness and one-level `Array.concat`
  flattening reproduced exactly).
* View nodes are the inductive `ViewItem` (element / text / document
  fragment), mirroring the runtime `instanceof` checks of `_convertItem`.
* The event emitter is modelled by a registry of handlers in registration
  order.  Converter callbacks are external plugin code, so the handler space
  is modelled by a small datatype: a handler either transforms the shared
  conversion request record, or first converts the children of the current
  input (through the `conversionApi.convertChildren` entry point, exactly as
  the converters shown in the source documentation do) and then transforms
  the record using the children results.
* Recursion of the dispatcher is driven by an explicit fuel argument so that
  every definition is a computable structural recursion; each theorem is
  stated for every fuel value (of shape `fuel + 1` where one unfolding of the
  call is needed), which covers every terminating run of the source.
-/

/-- JavaScript runtime values as far as the dispatcher observes them:
`null`/`undefined`, booleans, numbers, strings, arrays, and (opaque) model
nodes produced by converters. -/
inductive JSValue where
  | vNull : JSValue
  | vUndefined : JSValue
  | vBool : Bool → JSValue
  | vNum : Int → JSValue
  | vStr : String → JSValue
  | vArr : List JSValue → JSValue
  | vNode : String → JSValue

/-- JavaScript truthiness: `null`, `undefined`, `false`, `0`, `""` are falsy;
arrays and objects (model nodes) are always truthy. -/
def JSValue.truthy : JSValue → Bool
  | .vNull => false
  | .vUndefined => false
  | .vBool b => b
  | .vNum n => n != 0
  | .vStr s => s != ""
  | .vArr _ => true
  | .vNode _ => true

/-- Test used to state "the per-child result is null/absent". -/
def JSValue.isNullish : JSValue → Bool
  | .vNull => true
  | .vUndefined => true
  | _ => false

/-- Test for array values. -/
def JSValue.isArr : JSValue → Bool
  | .vArr _ => true
  | _ => false

/-- One step of `Array.prototype.concat`: concatenating an array appends its
elements (one-level flattening), concatenating a non-array appends the single
value. -/
def JSValue.concatElems : JSValue → List JSValue
  | .vArr xs => xs
  | v => [v]

/-- A truthy value that is not an array: what a converter producing a single
model node contributes to `convertChildren`. -/
def JSValue.nodeLike (v : JSValue) : Bool := v.truthy && !v.isArr

/-- View tree items: elements (with a name and children), text nodes, and
document fragments, mirroring `ViewElement`, `ViewText` and
`ViewDocumentFragment` as discriminated by `instanceof` in `_convertItem`. -/
inductive ViewItem where
  | element : String → List ViewItem → ViewItem
  | text : String → ViewItem
  | fragment : List ViewItem → ViewItem

/-- Ordered child list of a view item (`input.getChildren()`); text nodes
have no children. -/
def ViewItem.childrenOf : ViewItem → List ViewItem
  | .element _ cs => cs
  | .text _ => []
  | .fragment cs => cs

/-- Events fired by the dispatcher.  `element n` stands for the string event
name `element:` followed by the element name, as built by
`this.fire( 'element:' + input.name, ... )`. -/
inductive DispatchEvent where
  | viewCleanup : DispatchEvent
  | element : String → DispatchEvent
  | text : DispatchEvent
  | documentFragment : DispatchEvent
deriving DecidableEq

/-- Event selected by `_convertItem` for a given input, following the
`instanceof ViewElement` / `instanceof ViewText` / otherwise cascade. -/
def eventFor : ViewItem → DispatchEvent
  | .element n _ => .element n
  | .text _ => .text
  | .fragment _ => .documentFragment

/-- Listener registration keys of the emitter: a listener is registered
either for a specific `element:<name>` event, for the whole `element`
namespace, for `text`, or for `documentFragment`. -/
inductive EvKey where
  | elementNamed : String → EvKey
  | elementNS : EvKey
  | textKey : EvKey
  | documentFragmentKey : EvKey
deriving DecidableEq

/-- Namespace-aware event matching of the emitter mixin: a listener on the
`element` namespace receives every `element:<name>` event. -/
def EvKey.matches : EvKey → DispatchEvent → Bool
  | .elementNamed n, .element m => n == m
  | .elementNS, .element _ => true
  | .textKey, .text => true
  | .documentFragmentKey, .documentFragment => true
  | _, _ => false

/-- Extra fields injected into the conversion request record by the caller
(for example a `context` stack).  They are shared by reference between the
records of one conversion pass; in this pure embedding sharing a reference is
sharing the value. -/
abbrev Fields := List (String × JSValue)

/-- The conversion request record `data` built by `_convertItem` via
`extend( {}, additionalData, { input: input, output: null } )`: the injected
fields are (shallow-)copied, `input` is the converted item and `output`
starts out `null`. -/
structure DataRec where
  fields : Fields
  input : ViewItem
  output : JSValue

/-- Converter callbacks (external plugin code).  `pureH f` reads and rewrites
the shared request record; `childrenH f` first calls
`conversionApi.convertChildren( data.input, consumable, data )` — receiving
the flattened child results — and then rewrites the record. -/
inductive Handler where
  | pureH : (DataRec → DataRec) → Handler
  | childrenH : (DataRec → List JSValue → DataRec) → Handler

/-- Test that a handler never re-enters the dispatcher. -/
def Handler.isPure : Handler → Bool
  | .pureH _ => true
  | .childrenH _ => false

/-- Listener registry of the emitter, in registration order. -/
abbrev Registry := List (EvKey × Handler)

/-- Handlers invoked by `fire` for a given event, in registration order. -/
def matchedHandlers (reg : Registry) (e : DispatchEvent) : List Handler :=
  (reg.filter (fun p => p.1.matches e)).map Prod.snd

/-- Consumable tracker (`ViewConsumable`): its internal representation is out
of scope; what matters here is that it is created from a snapshot of the
whole converted subtree and passed unchanged to every callback of one pass.
It is modelled as the list of view items it was created from. -/
abbrev Consumable := List ViewItem

mutual
/-- Snapshot of an entire view subtree in document order (the part of
`ViewConsumable.createFrom` that scans the whole subtree). -/
def ViewItem.subtree : ViewItem → List ViewItem
  | .element n cs => .element n cs :: ViewItem.subtreeList cs
  | .text s => [.text s]
  | .fragment cs => .fragment cs :: ViewItem.subtreeList cs

/-- Snapshot of a forest of view subtrees in document order. -/
def ViewItem.subtreeList : List ViewItem → List ViewItem
  | [] => []
  | c :: cs => c.subtree ++ ViewItem.subtreeList cs
end

/-- Construction of the consumable tracker, `ViewConsumable.createFrom`,
scanning the entire subtree of the given item. -/
def ViewConsumable.createFrom (item : ViewItem) : Consumable :=
  item.subtree

/-- Reduction performed by `_convertChildren`:
`convertedChildren.reduce( ( a, b ) => b ? a.concat( b ) : a, [] )` —
truthy results are concatenated (arrays element-wise), falsy results are
skipped. -/
def flattenFilter (outs : List JSValue) : List JSValue :=
  outs.foldl (fun a b => if b.truthy then a ++ b.concatElems else a) []

/-- Runs the matched handlers of one `fire` call in order over the shared
request record.  `conv` is the children-conversion entry point the dispatcher
exposes to callbacks (`conversionApi.convertChildren` applied to the current
input); it returns the flattened child outputs together with the events the
nested conversions fired. -/
def runHandlersF (conv : Fields → List JSValue × List DispatchEvent) :
    List Handler → DataRec → DataRec × List DispatchEvent
  | [], d => (d, [])
  | .pureH f :: rest, d => runHandlersF conv rest (f d)
  | .childrenH f :: rest, d =>
      let r := conv d.fields
      let d1 := f d r.1
      let r2 := runHandlersF conv rest d1
      (r2.1, r.2 ++ r2.2)

/-- Converts a list of view items in order with one conversion entry point,
collecting per-item outputs and concatenating fired events (the
`viewChildren.map( ( viewChild ) => this._convertItem( ... ) )` part of
`_convertChildren`). -/
def convertListF (conv1 : ViewItem → Fields → JSValue × List DispatchEvent) :
    List ViewItem → Fields → List JSValue × List DispatchEvent
  | [], _ => ([], [])
  | c :: cs, ad =>
      let r1 := conv1 c ad
      let r2 := convertListF conv1 cs ad
      (r1.1 :: r2.1, r1.2 ++ r2.2)

/-- The single-item conversion routine `_convertItem` (exposed as
`convertItem`).  It builds a fresh request record from `additionalData` with
`input` set and `output` null, fires exactly one event selected by the
runtime kind of `input`, runs the matched handlers, and returns the final
`output` of the record; the returned trace lists the fired event followed by
all events fired by nested conversions requested by handlers.  `fuel` bounds
the re-entrance depth; fuel 0 yields the degenerate empty run. -/
def convertItemE : Nat → Registry → Consumable → ViewItem → Fields →
    JSValue × List DispatchEvent
  | 0, _, _, _, _ => (JSValue.vNull, [])
  | fuel + 1, reg, cons, item, ad =>
      let d0 : DataRec := ⟨ad, item, JSValue.vNull⟩
      let convChildren : Fields → List JSValue × List DispatchEvent :=
        fun adC =>
          let r := convertListF (fun it adI => convertItemE fuel reg cons it adI)
            item.childrenOf adC
          (flattenFilter r.1, r.2)
      let r := runHandlersF convChildren (matchedHandlers reg (eventFor item)) d0
      (r.1.output, eventFor item :: r.2)

/-- The children conversion routine `_convertChildren` (exposed as
`convertChildren`): converts every child of `input` in document order, each
with a fresh record built from the same `additionalData`, and reduces the
results with truthiness filtering and one-level flattening. -/
def convertChildrenE (fuel : Nat) (reg : Registry) (cons : Consumable)
    (item : ViewItem) (ad : Fields) : List JSValue × List DispatchEvent :=
  let r := convertListF (fun it adI => convertItemE fuel reg cons it adI)
    item.childrenOf ad
  (flattenFilter r.1, r.2)

/-- Handlers registered for the `viewCleanup` event; they receive the raw
view item and may normalize or prune it in place (modelled as a
transformation of the item). -/
abbrev CleanupHandlers := List (ViewItem → ViewItem)

/-- A conversion dispatcher: its listener registry, split by the (disjoint)
event names into cleanup listeners and conversion listeners. -/
structure Dispatcher where
  cleanupHandlers : CleanupHandlers
  registry : Registry

/-- Result of the post-cleanup view item: the `viewItem` after all
`viewCleanup` listeners ran over it in registration order. -/
def Dispatcher.cleaned (disp : Dispatcher) (item : ViewItem) : ViewItem :=
  disp.cleanupHandlers.foldl (fun it f => f it) item

/-- The conversion entry point `convert( viewItem, additionalData )`: fires
`viewCleanup` with the raw view item, then builds the consumable tracker
from the entire (post-cleanup) subtree, then delegates to `_convertItem`.
Returns the conversion output, the full event trace, and the tracker that
was built. -/
def convertE (fuel : Nat) (disp : Dispatcher) (item : ViewItem) (ad : Fields) :
    JSValue × List DispatchEvent × Consumable :=
  let cleanedItem := disp.cleaned item
  let cons := ViewConsumable.createFrom cleanedItem
  let r := convertItemE fuel disp.registry cons cleanedItem ad
  (r.1, .viewCleanup :: r.2, cons)

/-!
Model side: nodes, positions, documents and `InsertOperation`
(`src/unnamed/part_000`).  Model nodes are tagged with a numeric object
identity `id`; creating a fresh node object (as `new Text(...)`,
`new Element(...)` or `node.clone( true )` do) allocates fresh ids from a
counter, so "the same node object" is "the same id" and "a fresh, unshared
object" is "an id never used before".
-/

/-- Model tree nodes with object identity: text nodes carry their character
data, elements carry a name and a child list. -/
inductive MNode where
  | text : Nat → String → MNode
  | element : Nat → String → List MNode → MNode

/-- Offset size of a model node (`node.offsetSize`): a text node counts its
character length, any other node counts as one. -/
def MNode.offsetSize : MNode → Nat
  | .text _ s => s.length
  | .element _ _ _ => 1

/-- Total offset length of a node list (`NodeList#maxOffset`): the sum of
the offset sizes of its top-level nodes.  Modelled from the spec: the
`NodeList` class itself is not under `src`; the spec defines `maxOffset` as
the "total offset-length of the inserted node list (sum of each node's size,
where text nodes count their character length and element nodes count as
one)". -/
def maxOffsetList (ns : List MNode) : Nat :=
  (ns.map MNode.offsetSize).sum

/-- Pure value of a model node, with object identities erased. -/
inductive PNode where
  | text : String → PNode
  | element : String → List PNode → PNode

mutual
/-- Identity-erased value of a model node. -/
def MNode.val : MNode → PNode
  | .text _ s => .text s
  | .element _ n cs => .element n (MNode.valList cs)

/-- Identity-erased values of a node list. -/
def MNode.valList : List MNode → List PNode
  | [] => []
  | n :: ns => n.val :: MNode.valList ns
end

mutual
/-- Every object identity occurring in a model node, descendants included. -/
def MNode.ids : MNode → List Nat
  | .text i _ => [i]
  | .element i _ cs => i :: MNode.idsList cs

/-- Every object identity occurring in a node list, descendants included. -/
def MNode.idsList : List MNode → List Nat
  | [] => []
  | n :: ns => n.ids ++ MNode.idsList ns
end

mutual
/-- Deep clone of one node, `node.clone( true )`: allocates a fresh object
(fresh id from the counter) for the node and, recursively, for each
descendant; the value is preserved.  Returns the clone and the next free
id. -/
def MNode.cloneTrue (c : Nat) : MNode → MNode × Nat
  | .text _ s => (.text c s, c + 1)
  | .element _ n cs =>
      let r := MNode.cloneTrueList (c + 1) cs
      (.element c n r.1, r.2)

/-- Deep clone of a node list, `[ ...nodes ].map( ( node ) => node.clone( true ) )`. -/
def MNode.cloneTrueList (c : Nat) : List MNode → List MNode × Nat
  | [] => ([], c)
  | n :: ns =>
      let r := MNode.cloneTrue c n
      let r2 := MNode.cloneTrueList r.2 ns
      (r.1 :: r2.1, r2.2)
end

/-- Model position: the name of the root it is in and the offset path from
that root.  Modelled from the spec: `position.js` is not under `src`; the
spec describes a position as referencing a live root and a location in it,
copied by value by `Position.createFromPosition`. -/
structure PosData where
  root : String
  path : List Nat
deriving DecidableEq

/-- Model range: start and end position.  Modelled from the spec: the range
returned by execution "spanning the inserted content". -/
structure MRange where
  startPos : PosData
  endPos : PosData
deriving DecidableEq

/-- Position advanced by `w` offset units at its last path entry (the end of
a range spanning `w` offset units of content starting at the position). -/
def PosData.shifted (p : PosData) (w : Nat) : PosData :=
  ⟨p.root, p.path.dropLast ++ [p.path.getLastD 0 + w]⟩

/-- Model document: its named roots, each holding a forest of model nodes. -/
abbrev MDoc := List (String × List MNode)

/-- Node-set argument accepted by the `InsertOperation` constructor: a single
node, a single string, or an ordered collection of node-likes (nodes or
strings). -/
inductive NodeLike where
  | node : MNode → NodeLike
  | str : String → NodeLike

/-- Normalization input: one node-like or an ordered collection. -/
inductive NodeSet where
  | one : NodeLike → NodeSet
  | many : List NodeLike → NodeSet

/-- Conversion of one node-like to a model node: strings become text nodes.
The id of a text node created from a bare string is 0 (object identity of
such fresh literals plays no role in the claims). -/
def NodeLike.toNode : NodeLike → MNode
  | .node n => n
  | .str s => .text 0 s

/-- Normalization routine shared by writer and operations.  Modelled from
the spec: `writer.js` (exporting `normalizeNodes`) is not under `src`; the
spec says the constructor "normalizes `nodes` (accepting a single node, a
string, or an ordered collection of node-likes) into a canonical ordered
node list by the shared normalization routine". -/
def normalizeNodes : NodeSet → List MNode
  | .one x => [x.toNode]
  | .many xs => xs.map NodeLike.toNode

/-- Removal operation produced by `getReversed`.  Modelled from the spec:
`removeoperation.js` is not under `src`; the spec describes it as "a removal
operation targeting the same `position`, removing a span" of a given width,
constructed as `new RemoveOperation( position, howMany, baseVersion )`. -/
structure RemoveOperation where
  sourcePosition : PosData
  howMany : Nat
  baseVersion : Nat
deriving DecidableEq

/-- The insert operation: position of insertion (an owned copy), the
normalized list of nodes to insert, and the base document version. -/
structure InsertOperation where
  position : PosData
  nodes : List MNode
  baseVersion : Nat

/-- The `InsertOperation` constructor: copies `position` by value
(`Position.createFromPosition( position )`) and normalizes `nodes` into a
`NodeList` (`new NodeList( normalizeNodes( nodes ) )`). -/
def InsertOperation.make (position : PosData) (nodes : NodeSet)
    (baseVersion : Nat) : InsertOperation :=
  { position := position
    nodes := normalizeNodes nodes
    baseVersion := baseVersion }

/-- Operation type tag, `get type()`. -/
def InsertOperation.type (_ : InsertOperation) : String := "insert"

/-- The `clone()` method: deep-clones every node of the list
(`[ ...this.nodes ].map( ( node ) => node.clone( true ) )`, allocating fresh
objects from the id counter `c`) and builds a new `InsertOperation` from the
same position and base version. -/
def InsertOperation.clone (c : Nat) (op : InsertOperation) :
    InsertOperation × Nat :=
  let r := MNode.cloneTrueList c op.nodes
  (InsertOperation.make op.position (.many (r.1.map NodeLike.node))
    op.baseVersion, r.2)

/-- The `getReversed()` method:
`new RemoveOperation( this.position, this.nodes.maxOffset, this.baseVersion + 1 )`. -/
def InsertOperation.getReversed (op : InsertOperation) : RemoveOperation :=
  { sourcePosition := op.position
    howMany := maxOffsetList op.nodes
    baseVersion := op.baseVersion + 1 }

/-- Splice of a node list into a forest at a given offset (in offset units).
Insertion is only defined at node boundaries; reaching the middle of a text
node fails (text splitting is out of scope of this slice). -/
def spliceAtOffset (ns : List MNode) : Nat → List MNode → Option (List MNode)
  | 0, cs => some (ns ++ cs)
  | _ + 1, [] => none
  | off + 1, c :: rest =>
      if c.offsetSize ≤ off + 1 then
        (spliceAtOffset ns (off + 1 - c.offsetSize) rest).map (fun r => c :: r)
      else none

/-- Descent step of tree insertion: walks the forest to the node at the
given offset (which must be an element) and rebuilds it with `rec` applied
to its children. -/
def scanDescend (rec : List MNode → Option (List MNode)) :
    Nat → List MNode → Option (List MNode)
  | _, [] => none
  | 0, c :: rest =>
      match c with
      | .element i n cc => (rec cc).map (fun r => MNode.element i n r :: rest)
      | _ => none
  | off + 1, c :: rest =>
      if c.offsetSize ≤ off + 1 then
        (scanDescend rec (off + 1 - c.offsetSize) rest).map (fun r => c :: r)
      else none

/-- Insertion of a node list into a forest along an offset path. -/
def insertInNodes (ns : List MNode) : List Nat → List MNode → Option (List MNode)
  | [], _ => none
  | [off], cs => spliceAtOffset ns off cs
  | off :: p1 :: p, cs => scanDescend (insertInNodes ns (p1 :: p)) off cs

/-- Insertion of a node list into the document at a position.  Modelled from
the spec: `writer.insert` of `writer.js` is not under `src`; the spec says
it inserts the node list into the live document tree at `position` (fatal
errors such as a malformed position propagate, here as `none`). -/
def docInsert (pos : PosData) (ns : List MNode) (doc : MDoc) : Option MDoc :=
  match doc with
  | [] => none
  | (rn, forest) :: rest =>
      if rn = pos.root then
        (insertInNodes ns pos.path forest).map (fun f => (rn, f) :: rest)
      else
        (docInsert pos ns rest).map (fun d => (rn, forest) :: d)

/-- The writer-level insert call.  Modelled from the spec: `writer.insert`
mutates the document, is allowed to mutate the inserted node objects in
place as a side effect of structural normalization (adjacent text-node
merging, child-list rebalancing) — abstracted here as the parameter `mut`
applied to the inserted list — and returns the model range spanning the
inserted content. -/
def writerInsert (eff : List MNode → List MNode) (pos : PosData)
    (nodes : List MNode) (doc : MDoc) : Option (MDoc × MRange) :=
  let inserted := eff nodes
  match docInsert pos inserted doc with
  | none => none
  | some doc2 =>
      some (doc2, ⟨pos, pos.shifted (maxOffsetList inserted)⟩)

/-- The `_execute()` method: keeps hold of the original node objects, swaps
the operation's own `nodes` for deep clones taken before the mutating insert
call, passes the originals to `writer.insert( this.position, originalNodes )`
(whose in-place normalization side effect is the parameter `mut`), and
returns the resulting range.  `c` is the fresh-id counter for the clones. -/
def InsertOperation.execM (eff : List MNode → List MNode) (c : Nat)
    (op : InsertOperation) (doc : MDoc) :
    Option (InsertOperation × Nat × MDoc × MRange) :=
  let originalNodes := op.nodes
  let r := MNode.cloneTrueList c originalNodes
  let opAfter : InsertOperation := { op with nodes := r.1 }
  match writerInsert eff op.position originalNodes doc with
  | none => none
  | some (doc2, range) => some (opAfter, r.2, doc2, range)

/-- Execution restricted to the document result (no in-place normalization),
used to compare what two operations do to a document. -/
def InsertOperation.executeDoc (op : InsertOperation) (doc : MDoc) :
    Option MDoc :=
  docInsert op.position op.nodes doc

/-- Class name tag, `static get className()`. -/
def InsertOperation.className : String := "engine.model.operation.InsertOperation"

/-!
Serialized form (`JSON.parse( JSON.stringify( op ) )`) and `fromJSON`.
-/

/-- Serialized position: plain record of root name and path. -/
structure JPos where
  root : String
  path : List Nat
deriving DecidableEq

/-- Serialized model node record.  An element serializes with its `name`
field set and a text node with its `data` field set; the discriminating
check of `fromJSON` is JavaScript truthiness of the `name` field. -/
inductive JNode where
  | mk : Option String → Option String → List JNode → JNode

/-- Name field of a serialized node record. -/
def JNode.nameF : JNode → Option String
  | .mk n _ _ => n

/-- Data field of a serialized node record. -/
def JNode.dataF : JNode → Option String
  | .mk _ d _ => d

/-- Children field of a serialized node record. -/
def JNode.childrenF : JNode → List JNode
  | .mk _ _ cs => cs

/-- JavaScript truthiness of an optional string field (`if ( child.name )`):
an absent field and the empty string are falsy. -/
def jsTruthyName : Option String → Bool
  | some s => s != ""
  | none => false

mutual
/-- Serialization of one model node (its `toJSON`): elements keep their
name and serialized children, text nodes keep their character data. -/
def MNode.toJSON : MNode → JNode
  | .text _ s => .mk none (some s) []
  | .element _ n cs => .mk (some n) none (MNode.toJSONList cs)

/-- Serialization of a node list. -/
def MNode.toJSONList : List MNode → List JNode
  | [] => []
  | n :: ns => n.toJSON :: MNode.toJSONList ns
end

/-- Serialized insert operation: `{ position, nodes, baseVersion }` together
with the fixed `className` tag (the tag plays no further role in
deserialization of this one operation type). -/
structure JInsertOperation where
  position : JPos
  nodes : List JNode
  baseVersion : Nat

/-- Serialization of an insert operation, the result of
`JSON.parse( JSON.stringify( op ) )` on its own enumerable fields. -/
def InsertOperation.toJSON (op : InsertOperation) : JInsertOperation :=
  { position := ⟨op.position.root, op.position.path⟩
    nodes := MNode.toJSONList op.nodes
    baseVersion := op.baseVersion }

/-- Deserialization of one text node record, `Text.fromJSON( child )`.
Modelled from the spec: `text.js` is not under `src`; the spec says each
child record decodes by "delegating to the respective node type's own
`fromJSON`"; a fresh text object is allocated (id `c`). -/
def textFromJSON (c : Nat) (j : JNode) : MNode × Nat :=
  (.text c (j.dataF.getD ""), c + 1)

mutual
/-- Deserialization of one serialized child record, the body of the loop of
`InsertOperation.fromJSON`: `if ( child.name )` (JavaScript truthiness)
decodes an element, otherwise a text node.  Fresh node objects are
allocated from the id counter `c`. -/
def childFromJSON (c : Nat) : JNode → MNode × Nat
  | .mk n d cs =>
      if jsTruthyName n then
        let r := childListFromJSON (c + 1) cs
        (.element c (n.getD "") r.1, r.2)
      else
        (.text c (d.getD ""), c + 1)

/-- Deserialization of a list of serialized child records, in order. -/
def childListFromJSON (c : Nat) : List JNode → List MNode × Nat
  | [] => ([], c)
  | j :: js =>
      let r := childFromJSON c j
      let r2 := childListFromJSON r.2 js
      (r.1 :: r2.1, r2.2)
end

/-- Deserialization of one element node record, `Element.fromJSON( child )`.
Modelled from the spec: `element.js` is not under `src`; the spec says the
record decodes by delegating to the element type's own `fromJSON`, which
rebuilds the element and its children. -/
def elementFromJSON (c : Nat) (j : JNode) : MNode × Nat :=
  match j with
  | .mk n _ cs =>
      let r := childListFromJSON (c + 1) cs
      (.element c (n.getD "") r.1, r.2)

/-- Deserialization of a position, `Position.fromJSON( json.position, document )`.
Modelled from the spec: `position.js` is not under `src`; the spec says the
document is "needed to resolve `position` which references a live root";
an unknown root is a fatal error (`none`). -/
def positionFromJSON (j : JPos) (doc : MDoc) : Option PosData :=
  if (doc.lookup j.root).isSome then some ⟨j.root, j.path⟩ else none

/-- The static `fromJSON( json, document )` of `InsertOperation`: decodes
every serialized child record (element when the `name` field is truthy, text
node otherwise) and builds a new operation from the resolved position, the
decoded children and the serialized base version. -/
def InsertOperation.fromJSONM (j : JInsertOperation) (doc : MDoc) (c : Nat) :
    Option (InsertOperation × Nat) :=
  let r := childListFromJSON c j.nodes
  match positionFromJSON j.position doc with
  | none => none
  | some pos =>
      some (InsertOperation.make pos (.many (r.1.map NodeLike.node))
        j.baseVersion, r.2)

/-!
Heap model of position objects, used only to state that the constructor
stores an owned copy of `position` rather than an alias: position objects
live in numbered cells, the caller hands the constructor a cell number, and
`Position.createFromPosition` allocates a new cell holding a copy of the
caller's cell. -/

/-- Heap of position objects: cell `r` holds the `r`-th entry. -/
structure PosHeap where
  cells : List PosData

/-- Current contents of a position cell. -/
def PosHeap.read (h : PosHeap) (r : Nat) : PosData :=
  h.cells.getD r ⟨"", []⟩

/-- In-place mutation of a position cell (what a caller does when it mutates
its own position object after constructing the operation). -/
def PosHeap.write (h : PosHeap) (r : Nat) (p : PosData) : PosHeap :=
  ⟨h.cells.set r p⟩

/-- Allocation step of `Position.createFromPosition( position )`: a fresh
cell holding a copy of the caller's position object. -/
def createFromPositionH (h : PosHeap) (r : Nat) : PosHeap × Nat :=
  (⟨h.cells ++ [h.read r]⟩, h.cells.length)

/-- Insert operation whose position is a heap cell reference. -/
structure HInsertOperation where
  posRef : Nat
  nodes : List MNode
  baseVersion : Nat

/-- The constructor over the position heap: copies the caller's position
object into an owned fresh cell and normalizes the node-set argument. -/
def InsertOperation.makeH (h : PosHeap) (posRef : Nat) (nodes : NodeSet)
    (baseVersion : Nat) : PosHeap × HInsertOperation :=
  let r := createFromPositionH h posRef
  (r.1, ⟨r.2, normalizeNodes nodes, baseVersion⟩)

/-!
Identity-erased mirror of document insertion, used to state that executing
two operations with equal node values produces identical document results.
-/

mutual
/-- Decidable equality of identity-erased node values. -/
def PNode.decEqFn : (a b : PNode) → Decidable (a = b)
  | .text s, .text t =>
      match String.decEq s t with
      | isTrue h => isTrue (h ▸ rfl)
      | isFalse h => isFalse (fun hh => h (PNode.text.inj hh))
  | .text _, .element _ _ => isFalse (fun hh => PNode.noConfusion hh)
  | .element _ _, .text _ => isFalse (fun hh => PNode.noConfusion hh)
  | .element n cs, .element m ds =>
      match String.decEq n m, PNode.decEqListFn cs ds with
      | isTrue h1, isTrue h2 => isTrue (by rw [h1, h2])
      | isTrue _, isFalse h2 => isFalse (fun hh => h2 (PNode.element.inj hh).2)
      | isFalse h1, _ => isFalse (fun hh => h1 (PNode.element.inj hh).1)

/-- Decidable equality of lists of identity-erased node values. -/
def PNode.decEqListFn : (as bs : List PNode) → Decidable (as = bs)
  | [], [] => isTrue rfl
  | [], _ :: _ => isFalse (fun hh => List.noConfusion hh)
  | _ :: _, [] => isFalse (fun hh => List.noConfusion hh)
  | a :: as, b :: bs =>
      match PNode.decEqFn a b, PNode.decEqListFn as bs with
      | isTrue h1, isTrue h2 => isTrue (by rw [h1, h2])
      | isTrue _, isFalse h2 => isFalse (fun hh => h2 (List.cons.inj hh).2)
      | isFalse h1, _ => isFalse (fun hh => h1 (List.cons.inj hh).1)
end

instance : DecidableEq PNode := PNode.decEqFn

/-- Offset size of an identity-erased node value. -/
def PNode.offsetSize : PNode → Nat
  | .text s => s.length
  | .element _ _ => 1

/-- Identity-erased document: roots with value forests. -/
abbrev PDoc := List (String × List PNode)

/-- Identity-erased value of a document. -/
def docVal (doc : MDoc) : PDoc :=
  doc.map (fun rf => (rf.1, MNode.valList rf.2))

/-- Identity-erased mirror of `spliceAtOffset`. -/
def pspliceAtOffset (ns : List PNode) : Nat → List PNode → Option (List PNode)
  | 0, cs => some (ns ++ cs)
  | _ + 1, [] => none
  | off + 1, c :: rest =>
      if c.offsetSize ≤ off + 1 then
        (pspliceAtOffset ns (off + 1 - c.offsetSize) rest).map (fun r => c :: r)
      else none

/-- Identity-erased mirror of `scanDescend`. -/
def pscanDescend (rec : List PNode → Option (List PNode)) :
    Nat → List PNode → Option (List PNode)
  | _, [] => none
  | 0, c :: rest =>
      match c with
      | .element n cc => (rec cc).map (fun r => PNode.element n r :: rest)
      | _ => none
  | off + 1, c :: rest =>
      if c.offsetSize ≤ off + 1 then
        (pscanDescend rec (off + 1 - c.offsetSize) rest).map (fun r => c :: r)
      else none

/-- Identity-erased mirror of `insertInNodes`. -/
def pinsertInNodes (ns : List PNode) : List Nat → List PNode → Option (List PNode)
  | [], _ => none
  | [off], cs => pspliceAtOffset ns off cs
  | off :: p1 :: p, cs => pscanDescend (pinsertInNodes ns (p1 :: p)) off cs

/-- Identity-erased mirror of `docInsert`. -/
def pdocInsert (pos : PosData) (ns : List PNode) (doc : PDoc) : Option PDoc :=
  match doc with
  | [] => none
  | (rn, forest) :: rest =>
      if rn = pos.root then
        (pinsertInNodes ns pos.path forest).map (fun f => (rn, f) :: rest)
      else
        (pdocInsert pos ns rest).map (fun d => (rn, forest) :: d)

mutual
/-- Check that every element of a model node (descendants included) has a
non-empty name: the regime in which the truthiness discrimination of
`fromJSON` coincides with field presence. -/
def MNode.namesNonempty : MNode → Bool
  | .text _ _ => true
  | .element _ n cs => (n != "") && MNode.namesNonemptyList cs

/-- Check that every element in a node list has a non-empty name. -/
def MNode.namesNonemptyList : List MNode → Bool
  | [] => true
  | n :: ns => n.namesNonempty && MNode.namesNonemptyList ns
end

/-!
Helper lemmas.
-/

theorem valList_append (a b : List MNode) :
    MNode.valList (a ++ b) = MNode.valList a ++ MNode.valList b := by
  induction a with
  | nil => rfl
  | cons n ns ih => simp [MNode.valList, ih]

theorem valList_cons (n : MNode) (ns : List MNode) :
    MNode.valList (n :: ns) = n.val :: MNode.valList ns := rfl

theorem normalizeNodes_many_nodes (ns : List MNode) :
    normalizeNodes (.many (ns.map NodeLike.node)) = ns := by
  induction ns with
  | nil => rfl
  | cons n ns ih =>
      simp only [normalizeNodes, List.map_cons, NodeLike.toNode] at ih ⊢
      rw [ih]

mutual
theorem cloneTrue_val : ∀ (c : Nat) (n : MNode),
    (MNode.cloneTrue c n).1.val = n.val
  | _, .text _ _ => rfl
  | c, .element _ nm cs => by
      simp [MNode.cloneTrue, MNode.val, cloneTrueList_val (c + 1) cs]

theorem cloneTrueList_val : ∀ (c : Nat) (ns : List MNode),
    MNode.valList (MNode.cloneTrueList c ns).1 = MNode.valList ns
  | _, [] => rfl
  | c, n :: ns => by
      simp [MNode.cloneTrueList, MNode.valList, cloneTrue_val c n,
        cloneTrueList_val (MNode.cloneTrue c n).2 ns]
end

mutual
theorem cloneTrue_counter_lt : ∀ (c : Nat) (n : MNode),
    c < (MNode.cloneTrue c n).2
  | c, .text _ _ => Nat.lt_succ_self c
  | c, .element _ nm cs => by
      have h := cloneTrueList_counter_le (c + 1) cs
      simp only [MNode.cloneTrue]
      omega

theorem cloneTrueList_counter_le : ∀ (c : Nat) (ns : List MNode),
    c ≤ (MNode.cloneTrueList c ns).2
  | _, [] => Nat.le_refl _
  | c, n :: ns => by
      have h1 := cloneTrue_counter_lt c n
      have h2 := cloneTrueList_counter_le (MNode.cloneTrue c n).2 ns
      simp only [MNode.cloneTrueList]
      omega
end

mutual
theorem cloneTrue_ids_fresh : ∀ (c : Nat) (n : MNode),
    ∀ i ∈ (MNode.cloneTrue c n).1.ids, c ≤ i ∧ i < (MNode.cloneTrue c n).2
  | _, .text _ _ => by
      intro i hi
      simp only [MNode.cloneTrue, MNode.ids, List.mem_singleton] at hi
      subst hi
      exact ⟨Nat.le_refl _, Nat.lt_succ_self _⟩
  | c, .element _ nm cs => by
      intro i hi
      simp only [MNode.cloneTrue, MNode.ids, List.mem_cons] at hi
      have hcount := cloneTrueList_counter_le (c + 1) cs
      rcases hi with hEq | hi
      · refine ⟨Nat.le_of_eq hEq.symm, ?_⟩
        rw [hEq]
        show c < (MNode.cloneTrueList (c + 1) cs).2
        omega
      · have h := cloneTrueList_ids_fresh (c + 1) cs i hi
        show c ≤ i ∧ i < (MNode.cloneTrueList (c + 1) cs).2
        exact ⟨by omega, h.2⟩

theorem cloneTrueList_ids_fresh : ∀ (c : Nat) (ns : List MNode),
    ∀ i ∈ MNode.idsList (MNode.cloneTrueList c ns).1,
      c ≤ i ∧ i < (MNode.cloneTrueList c ns).2
  | _, [] => by intro i hi; simp [MNode.cloneTrueList, MNode.idsList] at hi
  | c, n :: ns => by
      intro i hi
      simp only [MNode.cloneTrueList, MNode.idsList, List.mem_append] at hi
      rcases hi with hi | hi
      · have h := cloneTrue_ids_fresh c n i hi
        have h2 := cloneTrueList_counter_le (MNode.cloneTrue c n).2 ns
        simp only [MNode.cloneTrueList]
        exact ⟨h.1, by omega⟩
      · have h := cloneTrueList_ids_fresh (MNode.cloneTrue c n).2 ns i hi
        have h2 := cloneTrue_counter_lt c n
        simp only [MNode.cloneTrueList]
        exact ⟨by omega, h.2⟩
end

/-!
Claims about `InsertOperation`.
-/

/-- C2: for every insert operation constructed from position `p`, nodes and
base version `v`, `getReversed()` returns a removal operation at the same
position `p`, of width the total offset-length of the node list (each text
node contributing its character length, each element node contributing one),
and base version exactly `v + 1`; in particular for position `(root, 0)`,
nodes `[TextNode "ab", ElementNode "x"]` and base version 5 the result
removes width 3 at `(root, 0)` with base version 6. -/
theorem C2_getReversed_spec :
    (∀ (p : PosData) (nodes : NodeSet) (v : Nat),
        (InsertOperation.make p nodes v).getReversed
          = ⟨p, maxOffsetList (normalizeNodes nodes), v + 1⟩)
    ∧ (∀ (p : PosData) (ns : List MNode) (v : Nat),
        (InsertOperation.make p (.many (ns.map NodeLike.node)) v).getReversed
          = ⟨p, (ns.map MNode.offsetSize).sum, v + 1⟩)
    ∧ (∀ i s, (MNode.text i s).offsetSize = s.length)
    ∧ (∀ i n cs, (MNode.element i n cs).offsetSize = 1)
    ∧ (InsertOperation.make ⟨"root", [0]⟩
        (.many [.node (.text 0 "ab"), .node (.element 1 "x" [])]) 5).getReversed
        = ⟨⟨"root", [0]⟩, 3, 6⟩ := by
  refine ⟨fun p nodes v => rfl, fun p ns v => ?_, fun i s => rfl,
    fun i n cs => rfl, ?_⟩
  · simp [InsertOperation.make, InsertOperation.getReversed,
      normalizeNodes_many_nodes, maxOffsetList]
  · decide

/-- C8: the constructor normalizes its node-set argument (single node,
string, or ordered collection of node-likes) through the shared
normalization routine, and stores an owned copy of `position`: mutating the
caller's position cell after construction leaves the operation's stored
position unchanged. -/
theorem C8_constructor_normalizes_and_copies_position (h : PosHeap) (r : Nat)
    (ns : NodeSet) (v : Nat) (hr : r < h.cells.length) :
    (InsertOperation.makeH h r ns v).2.nodes = normalizeNodes ns
    ∧ (InsertOperation.makeH h r ns v).2.baseVersion = v
    ∧ (normalizeNodes (.one (.node (.element 0 "x" []))) = [.element 0 "x" []]
        ∧ normalizeNodes (.one (.str "ab")) = [.text 0 "ab"]
        ∧ ∀ xs, normalizeNodes (.many xs) = xs.map NodeLike.toNode)
    ∧ ∀ p : PosData,
        ((InsertOperation.makeH h r ns v).1.write r p).read
            (InsertOperation.makeH h r ns v).2.posRef
          = h.read r := by
  refine ⟨rfl, rfl, ⟨rfl, rfl, fun xs => rfl⟩, fun p => ?_⟩
  show (PosHeap.write ⟨h.cells ++ [h.read r]⟩ r p).read h.cells.length = h.read r
  simp only [PosHeap.write, PosHeap.read]
  rw [List.getD_eq_getElem?_getD, List.getElem?_set_ne (by omega)]
  rw [List.getElem?_append_right (by omega)]
  simp

/-- C8 witness: a concrete heap with one position cell; after constructing
the operation from cell 0 and then mutating cell 0, the operation's stored
position still reads the original value. -/
theorem C8_witness :
    ((InsertOperation.makeH ⟨[⟨"main", [2]⟩]⟩ 0
          (.one (.str "hi")) 4).1.write 0 ⟨"other", [9]⟩).read
        (InsertOperation.makeH ⟨[⟨"main", [2]⟩]⟩ 0 (.one (.str "hi")) 4).2.posRef
      = ⟨"main", [2]⟩ :=
  (C8_constructor_normalizes_and_copies_position ⟨[⟨"main", [2]⟩]⟩ 0
    (.one (.str "hi")) 4 (by decide)).2.2.2 ⟨"other", [9]⟩

/-- C9: `clone()` (allocating fresh node objects from counter `c`) returns a
new insert operation with equal position, the same base version, and a node
list whose nodes and descendants are deep clones with the same values but
with no node object (id) shared with the original operation. -/
theorem C9_clone_deep_independent (c : Nat) (op : InsertOperation)
    (hids : ∀ i ∈ MNode.idsList op.nodes, i < c) :
    (InsertOperation.clone c op).1.position = op.position
    ∧ (InsertOperation.clone c op).1.baseVersion = op.baseVersion
    ∧ MNode.valList (InsertOperation.clone c op).1.nodes
        = MNode.valList op.nodes
    ∧ ∀ i ∈ MNode.idsList (InsertOperation.clone c op).1.nodes,
        i ∉ MNode.idsList op.nodes := by
  have hnodes : (InsertOperation.clone c op).1.nodes
      = (MNode.cloneTrueList c op.nodes).1 := by
    show normalizeNodes (.many ((MNode.cloneTrueList c op.nodes).1.map
      NodeLike.node)) = (MNode.cloneTrueList c op.nodes).1
    exact normalizeNodes_many_nodes _
  refine ⟨rfl, rfl, ?_, ?_⟩
  · rw [hnodes]
    exact cloneTrueList_val c op.nodes
  · rw [hnodes]
    intro i hi hmem
    have hfresh := cloneTrueList_ids_fresh c op.nodes i hi
    have := hids i hmem
    omega

/-- C9 witness: cloning a concrete operation (counter 5) preserves position,
base version and node values, and shares no node id with the original. -/
theorem C9_witness :
    (InsertOperation.clone 5
        ⟨⟨"main", [0]⟩, [.element 0 "x" [.text 1 "ab"]], 3⟩).1.position
      = ⟨"main", [0]⟩
    ∧ (InsertOperation.clone 5
        ⟨⟨"main", [0]⟩, [.element 0 "x" [.text 1 "ab"]], 3⟩).1.baseVersion = 3
    ∧ MNode.valList (InsertOperation.clone 5
        ⟨⟨"main", [0]⟩, [.element 0 "x" [.text 1 "ab"]], 3⟩).1.nodes
      = MNode.valList [.element 0 "x" [.text 1 "ab"]]
    ∧ ∀ i ∈ MNode.idsList (InsertOperation.clone 5
        ⟨⟨"main", [0]⟩, [.element 0 "x" [.text 1 "ab"]], 3⟩).1.nodes,
        i ∉ MNode.idsList
          ([.element 0 "x" [.text 1 "ab"]] : List MNode) :=
  C9_clone_deep_independent 5 ⟨⟨"main", [0]⟩, [.element 0 "x" [.text 1 "ab"]], 3⟩
    (by decide)

/-- C5: `_execute` passes the original node objects to the mutating writer
insert call (whose in-place normalization side effect is the parameter
`eff`), while the operation's own `nodes` field is replaced by deep clones
taken before that call — so after execution the operation's node values are
the pre-mutation values, independent of `eff`; `position` and `baseVersion`
are unchanged, and the returned range spans the inserted content. -/
theorem C5_execute_frame (eff : List MNode → List MNode) (c : Nat)
    (op : InsertOperation) (doc d2 : MDoc) (rg : MRange)
    (hins : writerInsert eff op.position op.nodes doc = some (d2, rg)) :
    InsertOperation.execM eff c op doc
      = some ({ op with nodes := (MNode.cloneTrueList c op.nodes).1 },
          (MNode.cloneTrueList c op.nodes).2, d2, rg)
    ∧ MNode.valList (MNode.cloneTrueList c op.nodes).1 = MNode.valList op.nodes
    ∧ docInsert op.position (eff op.nodes) doc = some d2
    ∧ rg = ⟨op.position, op.position.shifted (maxOffsetList (eff op.nodes))⟩ := by
  have hins2 := hins
  simp only [writerInsert] at hins2
  cases heq : docInsert op.position (eff op.nodes) doc with
  | none => rw [heq] at hins2; simp at hins2
  | some doc2 =>
      rw [heq] at hins2
      simp only [Option.some.injEq, Prod.mk.injEq] at hins2
      obtain ⟨hd, hr⟩ := hins2
      refine ⟨?_, cloneTrueList_val c op.nodes, ?_, hr.symm⟩
      · simp only [InsertOperation.execM]
        rw [hins]
      · rw [hd]

/-- C5 witness: executing a concrete operation holding two text nodes while
the writer-side normalization merges them: the document receives the merged
(mutated) originals, the operation keeps pre-mutation clones, position and
base version are unchanged, and the range spans the two inserted
characters. -/
theorem C5_witness :
    InsertOperation.execM (fun _ => [MNode.text 7 "ab"]) 20
        ⟨⟨"main", [0]⟩, [.text 0 "a", .text 1 "b"], 2⟩ [("main", [])]
      = some ({ (⟨⟨"main", [0]⟩, [.text 0 "a", .text 1 "b"], 2⟩ :
            InsertOperation) with
          nodes := (MNode.cloneTrueList 20
            ([.text 0 "a", .text 1 "b"] : List MNode)).1 },
          (MNode.cloneTrueList 20 ([.text 0 "a", .text 1 "b"] : List MNode)).2,
          [("main", [MNode.text 7 "ab"])],
          ⟨⟨"main", [0]⟩, ⟨"main", [2]⟩⟩)
    ∧ MNode.valList (MNode.cloneTrueList 20
          ([.text 0 "a", .text 1 "b"] : List MNode)).1
        = MNode.valList [.text 0 "a", .text 1 "b"]
    ∧ docInsert ⟨"main", [0]⟩ [MNode.text 7 "ab"] [("main", [])]
        = some [("main", [MNode.text 7 "ab"])]
    ∧ (⟨⟨"main", [0]⟩, ⟨"main", [2]⟩⟩ : MRange)
        = ⟨⟨"main", [0]⟩, PosData.shifted ⟨"main", [0]⟩
            (maxOffsetList ((fun _ => [MNode.text 7 "ab"])
              ([.text 0 "a", .text 1 "b"] : List MNode)))⟩ :=
  C5_execute_frame (fun _ => [MNode.text 7 "ab"]) 20
    ⟨⟨"main", [0]⟩, [.text 0 "a", .text 1 "b"], 2⟩ [("main", [])]
    [("main", [MNode.text 7 "ab"])] ⟨⟨"main", [0]⟩, ⟨"main", [2]⟩⟩ rfl

/-!
Lemmas for serialization round-trip.
-/

theorem offsetSize_val (n : MNode) : n.val.offsetSize = n.offsetSize := by
  cases n <;> rfl

mutual
theorem childFromJSON_val : ∀ (c : Nat) (n : MNode),
    MNode.namesNonempty n = true → (childFromJSON c n.toJSON).1.val = n.val
  | _, .text _ _, _ => rfl
  | c, .element _ nm cs, h => by
      simp only [MNode.namesNonempty, Bool.and_eq_true] at h
      simp only [MNode.toJSON, childFromJSON, jsTruthyName, h.1, if_true]
      simp only [MNode.val, Option.getD_some]
      rw [childListFromJSON_val (c + 1) cs h.2]

theorem childListFromJSON_val : ∀ (c : Nat) (ns : List MNode),
    MNode.namesNonemptyList ns = true →
      MNode.valList (childListFromJSON c (MNode.toJSONList ns)).1
        = MNode.valList ns
  | _, [], _ => rfl
  | c, n :: ns, h => by
      simp only [MNode.namesNonemptyList, Bool.and_eq_true] at h
      simp only [MNode.toJSONList, childListFromJSON, valList_cons]
      rw [childFromJSON_val c n h.1, childListFromJSON_val _ ns h.2]
end

theorem splice_val (ns : List MNode) : ∀ (cs : List MNode) (off : Nat),
    (spliceAtOffset ns off cs).map MNode.valList
      = pspliceAtOffset (MNode.valList ns) off (MNode.valList cs) := by
  intro cs
  induction cs with
  | nil =>
      intro off
      cases off with
      | zero => simp [spliceAtOffset, pspliceAtOffset, MNode.valList, valList_append]
      | succ k => simp [spliceAtOffset, pspliceAtOffset, MNode.valList]
  | cons c rest ih =>
      intro off
      cases off with
      | zero => simp [spliceAtOffset, pspliceAtOffset, valList_append, valList_cons]
      | succ k =>
          simp only [spliceAtOffset, valList_cons, pspliceAtOffset, offsetSize_val]
          by_cases hle : c.offsetSize ≤ k + 1
          · rw [if_pos hle, if_pos hle, ← ih (k + 1 - c.offsetSize)]
            cases spliceAtOffset ns (k + 1 - c.offsetSize) rest <;>
              simp [valList_cons]
          · rw [if_neg hle, if_neg hle]
            rfl

theorem scan_val (rec : List MNode → Option (List MNode))
    (prec : List PNode → Option (List PNode))
    (hrec : ∀ cc, (rec cc).map MNode.valList = prec (MNode.valList cc)) :
    ∀ (cs : List MNode) (off : Nat),
    (scanDescend rec off cs).map MNode.valList
      = pscanDescend prec off (MNode.valList cs) := by
  intro cs
  induction cs with
  | nil =>
      intro off
      cases off <;> simp [scanDescend, pscanDescend, MNode.valList]
  | cons c rest ih =>
      intro off
      cases off with
      | zero =>
          cases c with
          | text i s => simp [scanDescend, pscanDescend, valList_cons, MNode.val]
          | element i nm cc =>
              simp only [scanDescend, valList_cons, MNode.val, pscanDescend]
              rw [← hrec cc]
              cases rec cc <;> simp [valList_cons, MNode.val]
      | succ k =>
          simp only [scanDescend, valList_cons, pscanDescend, offsetSize_val]
          by_cases hle : c.offsetSize ≤ k + 1
          · rw [if_pos hle, if_pos hle, ← ih (k + 1 - c.offsetSize)]
            cases scanDescend rec (k + 1 - c.offsetSize) rest <;>
              simp [valList_cons]
          · rw [if_neg hle, if_neg hle]
            rfl

theorem insert_val (ns : List MNode) : ∀ (p : List Nat) (cs : List MNode),
    (insertInNodes ns p cs).map MNode.valList
      = pinsertInNodes (MNode.valList ns) p (MNode.valList cs)
  | [], _ => rfl
  | [off], cs => splice_val ns cs off
  | _ :: p1 :: p, cs =>
      scan_val (insertInNodes ns (p1 :: p)) (pinsertInNodes (MNode.valList ns)
        (p1 :: p)) (fun cc => insert_val ns (p1 :: p) cc) cs _

theorem docInsert_val (pos : PosData) (ns : List MNode) : ∀ (doc : MDoc),
    (docInsert pos ns doc).map docVal
      = pdocInsert pos (MNode.valList ns) (docVal doc) := by
  intro doc
  induction doc with
  | nil => rfl
  | cons rf rest ih =>
      obtain ⟨rn, forest⟩ := rf
      simp only [docInsert, docVal, List.map_cons, pdocInsert]
      by_cases hrn : rn = pos.root
      · rw [if_pos hrn, if_pos hrn, ← insert_val ns pos.path forest]
        cases insertInNodes ns pos.path forest <;> simp [docVal]
      · rw [if_neg hrn, if_neg hrn]
        simp only [docVal] at ih
        rw [← ih]
        cases docInsert pos ns rest <;> simp [docVal]

theorem executeDoc_val_congr (op op2 : InsertOperation)
    (hpos : op2.position = op.position)
    (hval : MNode.valList op2.nodes = MNode.valList op.nodes) (doc : MDoc) :
    (InsertOperation.executeDoc op2 doc).map docVal
      = (InsertOperation.executeDoc op doc).map docVal := by
  unfold InsertOperation.executeDoc
  rw [hpos, docInsert_val, docInsert_val, hval]

/-- C3 (amended): each serialized child record is decoded as an element-kind
node exactly when its name field is truthy (present and non-empty),
delegating to the element type's `fromJSON`, and as a text-kind node
otherwise (field absent — or present but empty, which is the amendment),
delegating to the text type's `fromJSON`; and for every operation whose
element nodes all carry non-empty names (at every depth), serializing and
deserializing reconstructs an operation with the same position, base
version and node values, whose execution produces an identical document
result. -/
theorem C3_fromJSON_roundTrip (op : InsertOperation) (doc : MDoc) (c : Nat)
    (hnames : MNode.namesNonemptyList op.nodes = true)
    (hroot : (doc.lookup op.position.root).isSome = true) :
    (∀ (cc : Nat) (j : JNode),
        childFromJSON cc j
          = if jsTruthyName j.nameF then elementFromJSON cc j
            else textFromJSON cc j)
    ∧ ∃ op2 c2, InsertOperation.fromJSONM op.toJSON doc c = some (op2, c2)
        ∧ op2.position = op.position
        ∧ op2.baseVersion = op.baseVersion
        ∧ MNode.valList op2.nodes = MNode.valList op.nodes
        ∧ (InsertOperation.executeDoc op2 doc).map docVal
            = (InsertOperation.executeDoc op doc).map docVal := by
  constructor
  · intro cc j
    cases j with
    | mk n d cs =>
        simp only [childFromJSON, JNode.nameF, JNode.dataF, elementFromJSON, textFromJSON]
  · refine ⟨InsertOperation.make ⟨op.position.root, op.position.path⟩
      (.many ((childListFromJSON c (MNode.toJSONList op.nodes)).1.map
        NodeLike.node)) op.baseVersion,
      (childListFromJSON c (MNode.toJSONList op.nodes)).2, ?_, rfl, rfl,
      ?_, ?_⟩
    · simp only [InsertOperation.fromJSONM, InsertOperation.toJSON,
        positionFromJSON, hroot, if_true]
    · show MNode.valList (normalizeNodes (.many
        ((childListFromJSON c (MNode.toJSONList op.nodes)).1.map
          NodeLike.node))) = MNode.valList op.nodes
      rw [normalizeNodes_many_nodes]
      exact childListFromJSON_val c op.nodes hnames
    · apply executeDoc_val_congr
      · rfl
      · show MNode.valList (normalizeNodes (.many
          ((childListFromJSON c (MNode.toJSONList op.nodes)).1.map
            NodeLike.node))) = MNode.valList op.nodes
        rw [normalizeNodes_many_nodes]
        exact childListFromJSON_val c op.nodes hnames

/-- C3 witness: a concrete operation with one element (non-empty name)
holding a text node round-trips through serialization: the reconstructed
operation has the same position, base version and node values and executes
to the same document result. -/
theorem C3_witness :
    (∀ (cc : Nat) (j : JNode),
        childFromJSON cc j
          = if jsTruthyName j.nameF then elementFromJSON cc j
            else textFromJSON cc j)
    ∧ ∃ op2 c2,
        InsertOperation.fromJSONM
            (InsertOperation.toJSON
              ⟨⟨"main", [0]⟩, [.element 0 "p" [.text 1 "hi"]], 4⟩)
            [("main", [])] 0
          = some (op2, c2)
        ∧ op2.position = (⟨⟨"main", [0]⟩, [.element 0 "p" [.text 1 "hi"]], 4⟩ :
            InsertOperation).position
        ∧ op2.baseVersion = 4
        ∧ MNode.valList op2.nodes
            = MNode.valList [.element 0 "p" [.text 1 "hi"]]
        ∧ (InsertOperation.executeDoc op2 [("main", [])]).map docVal
            = (InsertOperation.executeDoc
                ⟨⟨"main", [0]⟩, [.element 0 "p" [.text 1 "hi"]], 4⟩
                [("main", [])]).map docVal :=
  C3_fromJSON_roundTrip ⟨⟨"main", [0]⟩, [.element 0 "p" [.text 1 "hi"]], 4⟩
    [("main", [])] 0 (by decide) (by decide)

/-- C3 counterexample: a serialized child record whose name field is present
(`some ""`) but empty is decoded as a text-kind node, not an element-kind
node as the claim states, and the round-trip through serialization then
executes to a different document result than the original operation. -/
theorem C3_counterexample :
    (MNode.toJSONList ([.element 3 "" []] : List MNode)).map JNode.nameF
      = [some ""]
    ∧ MNode.valList (childListFromJSON 0
        (MNode.toJSONList ([.element 3 "" []] : List MNode))).1
      = [.text ""]
    ∧ MNode.valList ([.element 3 "" []] : List MNode) = [.element "" []]
    ∧ (PNode.text "" : PNode) ≠ PNode.element "" []
    ∧ ∃ op2 c2,
        InsertOperation.fromJSONM
            (InsertOperation.toJSON ⟨⟨"main", [0]⟩, [.element 3 "" []], 0⟩)
            [("main", [])] 0
          = some (op2, c2)
        ∧ (InsertOperation.executeDoc op2 [("main", [])]).map docVal
            ≠ (InsertOperation.executeDoc
                ⟨⟨"main", [0]⟩, [.element 3 "" []], 0⟩ [("main", [])]).map
                  docVal := by
  refine ⟨rfl, rfl, rfl, by decide,
    ⟨⟨⟨"main", [0]⟩, [.text 0 ""], 0⟩, 1, rfl, by decide⟩⟩

/-!
Lemmas about the dispatcher.
-/

theorem convertListF_outputs
    (conv1 : ViewItem → Fields → JSValue × List DispatchEvent) :
    ∀ (cs : List ViewItem) (ad : Fields),
    (convertListF conv1 cs ad).1 = cs.map (fun c => (conv1 c ad).1) := by
  intro cs ad
  induction cs with
  | nil => rfl
  | cons c rest ih => simp [convertListF, ih]

theorem flattenFilter_foldl (outs : List JSValue) : ∀ (acc : List JSValue),
    outs.foldl (fun a b => if b.truthy then a ++ b.concatElems else a) acc
      = acc ++ ((outs.filter JSValue.truthy).map JSValue.concatElems).flatten := by
  induction outs with
  | nil => intro acc; simp
  | cons o rest ih =>
      intro acc
      by_cases ho : o.truthy
      · simp only [List.foldl_cons, if_pos ho, List.filter_cons_of_pos ho,
          List.map_cons, List.flatten_cons, ih, List.append_assoc]
      · simp only [List.foldl_cons, if_neg ho,
          List.filter_cons_of_neg ho, ih]

theorem flattenFilter_eq (outs : List JSValue) :
    flattenFilter outs
      = ((outs.filter JSValue.truthy).map JSValue.concatElems).flatten := by
  simpa using flattenFilter_foldl outs []

theorem convertChildrenE_outputs (fuel : Nat) (reg : Registry)
    (cons : Consumable) (item : ViewItem) (ad : Fields) :
    (convertChildrenE fuel reg cons item ad).1
      = flattenFilter (item.childrenOf.map
          (fun ch => (convertItemE fuel reg cons ch ad).1)) := by
  unfold convertChildrenE
  dsimp only
  rw [convertListF_outputs]

theorem matchedHandlers_mem (reg : Registry) (e : DispatchEvent)
    (hh : Handler) (hmem : hh ∈ matchedHandlers reg e) :
    ∃ k, (k, hh) ∈ reg := by
  simp only [matchedHandlers, List.mem_map] at hmem
  obtain ⟨p, hp, he⟩ := hmem
  rw [List.mem_filter] at hp
  refine ⟨p.1, ?_⟩
  rw [← he]
  exact hp.1

theorem runHandlersF_pure_trace
    (conv : Fields → List JSValue × List DispatchEvent) :
    ∀ (hs : List Handler), (∀ hh ∈ hs, hh.isPure = true) →
      ∀ (d : DataRec), (runHandlersF conv hs d).2 = [] := by
  intro hs
  induction hs with
  | nil => intro _ d; rfl
  | cons hh rest ih =>
      intro hp d
      cases hh with
      | pureH f =>
          exact ih (fun x hx => hp x (List.mem_cons_of_mem _ hx)) (f d)
      | childrenH f =>
          have := hp (.childrenH f) (List.mem_cons_self _ _)
          simp [Handler.isPure] at this

theorem runHandlersF_trace_mem
    (conv : Fields → List JSValue × List DispatchEvent) :
    ∀ (hs : List Handler) (d : DataRec) (e : DispatchEvent),
      e ∈ (runHandlersF conv hs d).2 → ∃ adx, e ∈ (conv adx).2 := by
  intro hs
  induction hs with
  | nil => intro d e he; simp [runHandlersF] at he
  | cons hh rest ih =>
      intro d e he
      cases hh with
      | pureH f => exact ih (f d) e he
      | childrenH f =>
          simp only [runHandlersF, List.mem_append] at he
          rcases he with he | he
          · exact ⟨d.fields, he⟩
          · exact ih _ e he

theorem convertListF_trace_mem
    (conv1 : ViewItem → Fields → JSValue × List DispatchEvent) :
    ∀ (cs : List ViewItem) (ad : Fields) (e : DispatchEvent),
      e ∈ (convertListF conv1 cs ad).2 → ∃ c ∈ cs, e ∈ (conv1 c ad).2 := by
  intro cs
  induction cs with
  | nil => intro ad e he; simp [convertListF] at he
  | cons c rest ih =>
      intro ad e he
      simp only [convertListF, List.mem_append] at he
      rcases he with he | he
      · exact ⟨c, List.mem_cons_self _ _, he⟩
      · obtain ⟨c2, hc2, he2⟩ := ih ad e he
        exact ⟨c2, List.mem_cons_of_mem _ hc2, he2⟩

theorem eventFor_ne_viewCleanup (item : ViewItem) :
    eventFor item ≠ DispatchEvent.viewCleanup := by
  cases item <;> simp [eventFor]

theorem convertItemE_no_cleanup : ∀ (fuel : Nat) (reg : Registry)
    (cons : Consumable) (item : ViewItem) (ad : Fields),
    DispatchEvent.viewCleanup ∉ (convertItemE fuel reg cons item ad).2 := by
  intro fuel
  induction fuel with
  | zero => intro reg cons item ad; simp [convertItemE]
  | succ n ih =>
      intro reg cons item ad
      simp only [convertItemE, List.mem_cons]
      rintro (heq | hmem)
      · exact eventFor_ne_viewCleanup item heq.symm
      · obtain ⟨adx, hadx⟩ := runHandlersF_trace_mem _ _ _ _ hmem
        obtain ⟨c, _, hc⟩ := convertListF_trace_mem _ _ _ _ hadx
        exact ih reg cons c adx hc

theorem isNullish_not_truthy (o : JSValue) (h : o.isNullish = true) :
    o.truthy = false := by
  cases o <;> simp_all [JSValue.isNullish, JSValue.truthy]

theorem nodeLike_props (o : JSValue) (h : o.nodeLike = true) :
    o.truthy = true ∧ o.concatElems = [o] ∧ o.isNullish = false := by
  cases o <;>
    simp_all [JSValue.nodeLike, JSValue.truthy, JSValue.isArr,
      JSValue.concatElems, JSValue.isNullish]

/-!
Claims about the conversion dispatcher.
-/

/-- C1: every call to `_convertItem` fires exactly one notification,
selected by the runtime kind of the input: `element:<name>` for a view
element (carrying that element's name), `text` for a view text node, and
`documentFragment` otherwise; the three cases are mutually exclusive.  The
fired event heads the call's trace; nested events can only be added by
handlers that re-enter the dispatcher, so with non-re-entrant handlers the
trace is exactly that one event. -/
theorem C1_one_event_per_item (fuel : Nat) (reg : Registry)
    (cons : Consumable) (ad : Fields) (item : ViewItem) :
    (convertItemE (fuel + 1) reg cons item ad).2.head? = some (eventFor item)
    ∧ (∀ n cs, eventFor (.element n cs) = .element n)
    ∧ (∀ s, eventFor (.text s) = .text)
    ∧ (∀ cs, eventFor (.fragment cs) = .documentFragment)
    ∧ (∀ n, DispatchEvent.element n ≠ .text)
    ∧ (∀ n, DispatchEvent.element n ≠ .documentFragment)
    ∧ DispatchEvent.text ≠ DispatchEvent.documentFragment
    ∧ ((∀ p ∈ reg, p.2.isPure = true) →
        (convertItemE (fuel + 1) reg cons item ad).2 = [eventFor item]) := by
  refine ⟨rfl, fun n cs => rfl, fun s => rfl, fun cs => rfl,
    fun n => by simp, fun n => by simp, by simp, ?_⟩
  intro hp
  have hmatched : ∀ hh ∈ matchedHandlers reg (eventFor item),
      hh.isPure = true := by
    intro hh hmem
    obtain ⟨k, hk⟩ := matchedHandlers_mem _ _ _ hmem
    exact hp (k, hh) hk
  show eventFor item :: _ = [eventFor item]
  rw [runHandlersF_pure_trace _ _ hmatched]

/-- C1 witness: converting a concrete `<p>` element against a registry with
one non-re-entrant namespace handler fires exactly the single event
`element:p`. -/
theorem C1_witness :
    (convertItemE 1
        [(EvKey.elementNS,
          Handler.pureH (fun d => { d with output := JSValue.vNode "P" }))]
        [] (.element "p" []) []).2
      = [DispatchEvent.element "p"] :=
  (C1_one_event_per_item 0
    [(EvKey.elementNS,
      Handler.pureH (fun d => { d with output := JSValue.vNode "P" }))]
    [] [] (.element "p" [])).2.2.2.2.2.2.2 (by decide)

/-- C7: `_convertItem` returns the final value of the request record's
`output` field after all matched handlers ran; when no registered handler
matches the selected event (in particular when none exists for the item's
kind), the returned output is the initial `null`, and no error is raised —
the embedding is a total function. -/
theorem C7_output_final_or_null (fuel : Nat) (reg : Registry)
    (cons : Consumable) (item : ViewItem) (ad : Fields) :
    (convertItemE (fuel + 1) reg cons item ad).1
      = (runHandlersF (fun adC =>
            (flattenFilter (convertListF (fun it adI =>
                convertItemE fuel reg cons it adI) item.childrenOf adC).1,
             (convertListF (fun it adI => convertItemE fuel reg cons it adI)
                item.childrenOf adC).2))
          (matchedHandlers reg (eventFor item))
          ⟨ad, item, JSValue.vNull⟩).1.output
    ∧ (matchedHandlers reg (eventFor item) = [] →
        (convertItemE (fuel + 1) reg cons item ad).1 = JSValue.vNull) := by
  refine ⟨rfl, ?_⟩
  intro h
  show (runHandlersF _ (matchedHandlers reg (eventFor item))
    ⟨ad, item, JSValue.vNull⟩).1.output = JSValue.vNull
  rw [h]
  rfl

/-- C7 witness: with an empty registry, converting a text node returns
`null`. -/
theorem C7_witness :
    (convertItemE 1 [] [] (ViewItem.text "hi") []).1 = JSValue.vNull :=
  (C7_output_final_or_null 0 [] [] (ViewItem.text "hi") []).2 rfl

/-- C6: within one top-level `convert` call, the `viewCleanup` notification
(carrying the raw view item, which cleanup listeners may rewrite) is fired
first: it heads the trace, the consumable tracker is built from the entire
post-cleanup subtree, and no per-node conversion event in the remaining
trace is a `viewCleanup` (so cleanup precedes every per-node notification
and the tracker construction). -/
theorem C6_cleanup_precedes_conversion (fuel : Nat) (disp : Dispatcher)
    (item : ViewItem) (ad : Fields) :
    (convertE fuel disp item ad).2.1.head? = some .viewCleanup
    ∧ (convertE fuel disp item ad).2.1
        = .viewCleanup :: (convertItemE fuel disp.registry
            (ViewConsumable.createFrom (disp.cleaned item))
            (disp.cleaned item) ad).2
    ∧ DispatchEvent.viewCleanup ∉ (convertItemE fuel disp.registry
        (ViewConsumable.createFrom (disp.cleaned item))
        (disp.cleaned item) ad).2
    ∧ (convertE fuel disp item ad).2.2
        = ViewConsumable.createFrom (disp.cleaned item) :=
  ⟨rfl, rfl, convertItemE_no_cleanup _ _ _ _ _, rfl⟩

/-- C10: `_convertChildren` filters the per-child results by JavaScript
truthiness (not by a null-specific test) — so any falsy output (`null`,
`undefined`, `false`, `0`, `""`) contributes nothing — and concatenates the
truthy results with `Array.concat`, which flattens an array-valued result
one level instead of nesting it. -/
theorem C10_truthy_filter_concat_flatten (fuel : Nat) (reg : Registry)
    (cons : Consumable) (item : ViewItem) (ad : Fields) :
    (convertChildrenE fuel reg cons item ad).1
      = (((item.childrenOf.map
            (fun ch => (convertItemE fuel reg cons ch ad).1)).filter
              JSValue.truthy).map JSValue.concatElems).flatten
    ∧ JSValue.truthy .vNull = false
    ∧ JSValue.truthy .vUndefined = false
    ∧ JSValue.truthy (.vBool false) = false
    ∧ JSValue.truthy (.vNum 0) = false
    ∧ JSValue.truthy (.vStr "") = false
    ∧ (∀ xs, JSValue.concatElems (.vArr xs) = xs)
    ∧ (∀ s, JSValue.concatElems (.vNode s) = [.vNode s]) := by
  refine ⟨?_, rfl, rfl, rfl, by decide, by decide, fun xs => rfl,
    fun s => rfl⟩
  rw [convertChildrenE_outputs, flattenFilter_eq]

/-- C4: `convertChildren` converts each child of the parent in document
order, each conversion a function of the same additional data only (the
fresh per-child record is seeded from it, so siblings never observe each
other's `output`), and — whenever each per-child result is null/absent or a
single (truthy, non-array) node value — returns exactly the per-child
results in order with the null/absent ones omitted. -/
theorem C4_children_order_null_omitted (fuel : Nat) (reg : Registry)
    (cons : Consumable) (ad : Fields) (item : ViewItem)
    (h : ∀ o ∈ item.childrenOf.map
        (fun ch => (convertItemE fuel reg cons ch ad).1),
        o.isNullish = true ∨ o.nodeLike = true) :
    (convertChildrenE fuel reg cons item ad).1
      = (item.childrenOf.map
          (fun ch => (convertItemE fuel reg cons ch ad).1)).filter
            (fun o => !o.isNullish) := by
  rw [convertChildrenE_outputs, flattenFilter_eq]
  generalize item.childrenOf.map
    (fun ch => (convertItemE fuel reg cons ch ad).1) = outs at h ⊢
  induction outs with
  | nil => rfl
  | cons o rest ih =>
      have hrest := fun x hx => h x (List.mem_cons_of_mem _ hx)
      rcases h o (List.mem_cons_self _ _) with ho | ho
      · simp only [List.filter_cons, isNullish_not_truthy o ho, ho,
          Bool.not_true, Bool.false_eq_true, if_false, ih hrest]
      · obtain ⟨h1, h2, h3⟩ := nodeLike_props o ho
        simp only [List.filter_cons, h1, h2, h3, Bool.not_false, if_true,
          List.map_cons, List.flatten_cons, ih hrest, List.singleton_append]

/-- C4 witness: three children whose conversions produce `[A, null, B]`
(the middle text child has no handler) yield `[A, B]`. -/
theorem C4_witness :
    (convertChildrenE 1
        [(EvKey.elementNamed "a",
          Handler.pureH (fun d => { d with output := JSValue.vNode "A" })),
         (EvKey.elementNamed "b",
          Handler.pureH (fun d => { d with output := JSValue.vNode "B" }))]
        [] (.fragment [.element "a" [], .text "t", .element "b" []]) []).1
      = ((ViewItem.fragment [.element "a" [], .text "t", .element "b" []]
          ).childrenOf.map (fun ch => (convertItemE 1
            [(EvKey.elementNamed "a",
              Handler.pureH (fun d => { d with output := JSValue.vNode "A" })),
             (EvKey.elementNamed "b",
              Handler.pureH (fun d => { d with output := JSValue.vNode "B" }))]
            [] ch []).1)).filter (fun o => !o.isNullish) :=
  C4_children_order_null_omitted 1
    [(EvKey.elementNamed "a",
      Handler.pureH (fun d => { d with output := JSValue.vNode "A" })),
     (EvKey.elementNamed "b",
      Handler.pureH (fun d => { d with output := JSValue.vNode "B" }))]
    [] [] (.fragment [.element "a" [], .text "t", .element "b" []])
    (by decide)
